import Mathlib

/-!
Shallow embedding of the RAJA execution-policy / kernel engine sources and
proofs of the spec's testable properties against it.

The embedding covers:
* `GetOffsetLeft` / `GetOffsetRight` (src/include/RAJA/util/OffsetOperators.hpp)
* `TypedRangeSegment` construction, `size`, iteration and `slice`
  (modelled from the spec; exercised by src/test/unit/index/test-rangesegment.cpp)
* `TensorTileExec::exec` tiling sweep
  (src/include/RAJA/pattern/tensor/internal/TensorTileExec.hpp)
* the host OpenMP `forall_impl` loop variants (src/include/RAJA/policy/openmp/forall.hpp)
* the `InitScopedMem` statement executor (src/include/RAJA/pattern/kernel/Lambda.hpp)
* the reduction example (src/examples/launch-param-reductions.cpp) together with a
  model of the reduction engine's sequential and two-stage parallel merge
* the `kernel_param` matrix-multiply test
  (src/test/functional/kernel/nested-loop/tests/test-kernel-nested-loop-MultiLambdaParam.hpp)
-/

set_option maxHeartbeats 1000000

namespace RAJAVerify

/- ### Offset operators, src/include/RAJA/util/OffsetOperators.hpp -/

/-- `GetOffsetLeft::operator()(i, num_i, j, num_j)`: returns `i + j * num_i`
(`num_j` is unused in the source). -/
def GetOffsetLeft (i num_i j num_j : ℤ) : ℤ :=
  let _ := num_j
  i + j * num_i

/-- `GetOffsetRight::operator()(i, num_i, j, num_j)`: returns `i * num_j + j`
(`num_i` is unused in the source). -/
def GetOffsetRight (i num_i j num_j : ℤ) : ℤ :=
  let _ := num_i
  i * num_j + j

/- ### Index range, modelled from the spec (`TypedRangeSegment` is not among the
source files; its unit test src/test/unit/index/test-rangesegment.cpp is). -/

/-- Modelled from the spec: the error taxonomy for range construction and
slicing (`InvalidRangeError` for a bad constructor, `OutOfBoundsError` for a
slice beyond the original extent). -/
inductive RangeError where
  | InvalidRangeError
  | OutOfBoundsError
deriving Repr, DecidableEq

/-- Modelled from the spec: `IndexRange` is `{begin, end, stride}` over an
ordered scalar type. -/
structure RangeSegment where
  m_begin : ℤ
  m_end : ℤ
  m_stride : ℤ
deriving Repr, DecidableEq

/-- Ceiling division `ceil(a / b)` on integers, written with the Euclidean
(floor) division of the scalar type; for `b < 0` it divides the negated pair. -/
def ceilDiv (a b : ℤ) : ℤ :=
  if 0 < b then (a + b - 1) / b else (-a + -b - 1) / -b

/-- Modelled from the spec: `make(begin, end, stride = 1)` fails with
`InvalidRangeError` when `stride == 0`; the two-argument `TypedRangeSegment`
constructor rejects `begin > end` eagerly (the unit test asserts that
construction of a backward range throws). -/
def mkRangeSegment (b e : ℤ) : Except RangeError RangeSegment :=
  if e < b then Except.error RangeError.InvalidRangeError
  else Except.ok { m_begin := b, m_end := e, m_stride := 1 }

/-- Modelled from the spec: the strided constructor, failing with
`InvalidRangeError` when `stride == 0` and, as the backward-range check of the
boundary, when the range is backward relative to the stride direction. -/
def mkStridedRangeSegment (b e s : ℤ) : Except RangeError RangeSegment :=
  if s = 0 then Except.error RangeError.InvalidRangeError
  else Except.ok { m_begin := b, m_end := e, m_stride := s }

/-- Modelled from the spec: `size()` returns `ceil((end - begin) / stride)`,
clamped to zero. -/
def RangeSegment.size (r : RangeSegment) : ℤ :=
  max 0 (ceilDiv (r.m_end - r.m_begin) r.m_stride)

/-- Iteration of an ascending (positive-stride) range: indices
`b, b + s, b + 2s, ...` strictly below `e`.  Structural on a fuel argument so
that the definition evaluates; `fuel = (e - b).toNat` always suffices because
each step advances by `s ≥ 1`. -/
def iterAscFuel (e s : ℤ) : ℕ → ℤ → List ℤ
  | 0, _ => []
  | fuel + 1, b => if b < e then b :: iterAscFuel e s fuel (b + s) else []

/-- Iteration of a descending (negative-stride) range: indices
`b, b + s, b + 2s, ...` strictly above `e`. -/
def iterDescFuel (e s : ℤ) : ℕ → ℤ → List ℤ
  | 0, _ => []
  | fuel + 1, b => if e < b then b :: iterDescFuel e s fuel (b + s) else []

/-- Modelled from the spec: the (finite, restartable) sequence of indices a
range produces, in iteration order. -/
def RangeSegment.toList (r : RangeSegment) : List ℤ :=
  if 0 < r.m_stride then iterAscFuel r.m_end r.m_stride (r.m_end - r.m_begin).toNat r.m_begin
  else iterDescFuel r.m_end r.m_stride (r.m_begin - r.m_end).toNat r.m_begin

/-- Modelled from the spec: `slice(offset, length)` returns a new range starting
at `begin + offset * stride` of `length` elements; it fails with
`OutOfBoundsError` if the slice would exceed the original extent. -/
def RangeSegment.slice (r : RangeSegment) (offset length : ℤ) : Except RangeError RangeSegment :=
  if 0 ≤ offset ∧ 0 ≤ length ∧ offset + length ≤ r.size then
    Except.ok { m_begin := r.m_begin + offset * r.m_stride,
                m_end := r.m_begin + offset * r.m_stride + length * r.m_stride,
                m_stride := r.m_stride }
  else Except.error RangeError.OutOfBoundsError

/- ### Arithmetic facts about `ceilDiv` and range iteration -/

theorem ceilDiv_pos_den (a b : ℤ) (hb : 0 < b) : ceilDiv a b = (a + b - 1) / b := by
  simp [ceilDiv, hb]

theorem ceilDiv_succ (a b : ℤ) (hb : 0 < b) : ceilDiv a b = 1 + ceilDiv (a - b) b := by
  rw [ceilDiv_pos_den _ _ hb, ceilDiv_pos_den _ _ hb]
  have h : a + b - 1 = (a - b + b - 1) + 1 * b := by ring
  rw [h, Int.add_mul_ediv_right _ _ (by omega : b ≠ 0)]
  omega

theorem ceilDiv_nonpos (a b : ℤ) (hb : 0 < b) (ha : a ≤ 0) : ceilDiv a b ≤ 0 := by
  rw [ceilDiv_pos_den _ _ hb]
  have h1 : a + b - 1 ≤ b - 1 := by omega
  have h2 : (a + b - 1) / b ≤ (b - 1) / b := Int.ediv_le_ediv hb h1
  have h3 : (b - 1) / b = 0 := Int.ediv_eq_zero_of_lt (by omega) (by omega)
  omega

theorem ceilDiv_pos (a b : ℤ) (hb : 0 < b) (ha : 0 < a) : 0 < ceilDiv a b := by
  rw [ceilDiv_pos_den _ _ hb]
  have : (1 : ℤ) ≤ (a + b - 1) / b := by
    rw [Int.le_ediv_iff_mul_le hb]
    omega
  omega

theorem iterAscFuel_length (e s : ℤ) (hs : 0 < s) :
    ∀ (fuel : ℕ) (b : ℤ), (e - b).toNat ≤ fuel →
      (iterAscFuel e s fuel b).length = (max 0 (ceilDiv (e - b) s)).toNat := by
  intro fuel
  induction fuel with
  | zero =>
    intro b hb
    have : e - b ≤ 0 := by omega
    have h := ceilDiv_nonpos (e - b) s hs this
    simp [iterAscFuel]
    omega
  | succ n ih =>
    intro b hb
    by_cases h : b < e
    · have hrec := ih (b + s) (by omega)
      simp only [iterAscFuel, if_pos h, List.length_cons, hrec]
      have hstep : ceilDiv (e - b) s = 1 + ceilDiv (e - b - s) s := ceilDiv_succ (e - b) s hs
      have hpos : 0 < ceilDiv (e - b) s := ceilDiv_pos _ _ hs (by omega)
      have h2 : e - (b + s) = e - b - s := by ring
      rw [h2]
      by_cases hz : 0 < ceilDiv (e - b - s) s
      · omega
      · have : (max 0 (ceilDiv (e - b - s) s)) = 0 := by omega
        rw [this]
        omega
    · have : e - b ≤ 0 := by omega
      have h0 := ceilDiv_nonpos (e - b) s hs this
      simp [iterAscFuel, h]
      omega

theorem iterDescFuel_length (e s : ℤ) (hs : s < 0) :
    ∀ (fuel : ℕ) (b : ℤ), (b - e).toNat ≤ fuel →
      (iterDescFuel e s fuel b).length = (max 0 (ceilDiv (e - b) s)).toNat := by
  intro fuel
  induction fuel with
  | zero =>
    intro b hb
    have h1 : b - e ≤ 0 := by omega
    have : ceilDiv (e - b) s ≤ 0 := by
      simp only [ceilDiv, if_neg (by omega : ¬ (0 : ℤ) < s)]
      have h2 : -(e - b) + -s - 1 ≤ -s - 1 := by omega
      have h3 : (-(e - b) + -s - 1) / -s ≤ (-s - 1) / -s := Int.ediv_le_ediv (by omega) h2
      have h4 : (-s - 1) / -s = 0 := Int.ediv_eq_zero_of_lt (by omega) (by omega)
      omega
    simp [iterDescFuel]
    omega
  | succ n ih =>
    intro b hb
    by_cases h : e < b
    · have hrec := ih (b + s) (by omega)
      simp only [iterDescFuel, if_pos h, List.length_cons, hrec]
      have hmir : ∀ x : ℤ, ceilDiv x s = ceilDiv (-x) (-s) := by
        intro x
        simp only [ceilDiv, if_neg (by omega : ¬ (0 : ℤ) < s), if_pos (by omega : (0 : ℤ) < -s),
          neg_neg]
      rw [hmir (e - b), hmir (e - (b + s))]
      have hstep : ceilDiv (-(e - b)) (-s) = 1 + ceilDiv (-(e - b) - -s) (-s) :=
        ceilDiv_succ _ _ (by omega)
      have heq : -(e - (b + s)) = -(e - b) - -s := by ring
      rw [heq, hstep]
      have hpos : 0 < ceilDiv (-(e - b)) (-s) := ceilDiv_pos _ _ (by omega) (by omega)
      by_cases hz : 0 < ceilDiv (-(e - b) - -s) (-s)
      · omega
      · have : (max 0 (ceilDiv (-(e - b) - -s) (-s))) = 0 := by omega
        rw [this]
        rw [hstep] at hpos
        omega
    · have h1 : b - e ≤ 0 := by omega
      have : ceilDiv (e - b) s ≤ 0 := by
        simp only [ceilDiv, if_neg (by omega : ¬ (0 : ℤ) < s)]
        have h2 : -(e - b) + -s - 1 ≤ -s - 1 := by omega
        have h3 : (-(e - b) + -s - 1) / -s ≤ (-s - 1) / -s := Int.ediv_le_ediv (by omega) h2
        have h4 : (-s - 1) / -s = 0 := Int.ediv_eq_zero_of_lt (by omega) (by omega)
        omega
      simp [iterDescFuel, h]
      omega

theorem ceilDiv_mul_self (len s : ℤ) (hs : s ≠ 0) : ceilDiv (len * s) s = len := by
  rcases lt_or_gt_of_ne hs with h | h
  · simp only [ceilDiv, if_neg (by omega : ¬ (0 : ℤ) < s)]
    have he : -(len * s) + -s - 1 = (-s - 1) + len * -s := by ring
    rw [he, Int.add_mul_ediv_right _ _ (by omega : -s ≠ 0)]
    have h4 : (-s - 1) / -s = 0 := Int.ediv_eq_zero_of_lt (by omega) (by omega)
    omega
  · simp only [ceilDiv, if_pos h]
    have he : len * s + s - 1 = (s - 1) + len * s := by ring
    rw [he, Int.add_mul_ediv_right _ _ (by omega : s ≠ 0)]
    have h4 : (s - 1) / s = 0 := Int.ediv_eq_zero_of_lt (by omega) (by omega)
    omega

/- ### Claim theorems: offsets and ranges -/

/-- C10: `GetOffsetLeft(i, num_i, j, num_j) = i + j*num_i` and
`GetOffsetRight(i, num_i, j, num_j) = i*num_j + j` for all inputs, hence
`GetOffsetLeft(i, num_i, j, num_j) = GetOffsetRight(j, num_j, i, num_i)`; and
whenever `0 ≤ i < num_i` and `0 ≤ j < num_j`, both offsets lie in
`[0, num_i * num_j)`. -/
theorem getOffsetLeft_right_transpose_and_bounds (i num_i j num_j : ℤ) :
    GetOffsetLeft i num_i j num_j = i + j * num_i ∧
    GetOffsetRight i num_i j num_j = i * num_j + j ∧
    GetOffsetLeft i num_i j num_j = GetOffsetRight j num_j i num_i ∧
    (0 ≤ i → i < num_i → 0 ≤ j → j < num_j →
      0 ≤ GetOffsetLeft i num_i j num_j ∧ GetOffsetLeft i num_i j num_j < num_i * num_j ∧
      0 ≤ GetOffsetRight i num_i j num_j ∧ GetOffsetRight i num_i j num_j < num_i * num_j) := by
  refine ⟨rfl, rfl, by simp only [GetOffsetLeft, GetOffsetRight]; ring, ?_⟩
  intro hi0 hi hj0 hj
  simp only [GetOffsetLeft, GetOffsetRight]
  refine ⟨?_, ?_, ?_, ?_⟩
  · nlinarith [mul_nonneg hj0 (show (0:ℤ) ≤ num_i by omega)]
  · nlinarith [mul_le_mul_of_nonneg_right (show j ≤ num_j - 1 by omega) (show (0:ℤ) ≤ num_i by omega)]
  · nlinarith [mul_nonneg hi0 (show (0:ℤ) ≤ num_j by omega)]
  · nlinarith [mul_le_mul_of_nonneg_right (show i ≤ num_i - 1 by omega) (show (0:ℤ) ≤ num_j by omega)]

/-- Witness for C10 at `i = 1, num_i = 2, j = 2, num_j = 3`. -/
theorem getOffsetLeft_right_transpose_and_bounds_witness :
    0 ≤ GetOffsetLeft 1 2 2 3 ∧ GetOffsetLeft 1 2 2 3 < 2 * 3 ∧
    0 ≤ GetOffsetRight 1 2 2 3 ∧ GetOffsetRight 1 2 2 3 < 2 * 3 :=
  (getOffsetLeft_right_transpose_and_bounds 1 2 2 3).2.2.2
    (by decide) (by decide) (by decide) (by decide)

/-- C4: for every valid `(begin, end, stride)`, `size()` returns
`ceil((end-begin)/stride)` clamped to zero, and this value equals the number of
indices actually produced by iterating the range; in particular the range
`(0,100)` has size 100 and end-begin distance 100, and `(-10,7)` has size 17. -/
theorem rangeSegment_size_counts_iteration (b e s : ℤ) (hs : s ≠ 0) (r : RangeSegment)
    (hr : mkStridedRangeSegment b e s = Except.ok r) :
    r.size = max 0 (ceilDiv (e - b) s) ∧
    r.toList.length = r.size.toNat ∧
    (RangeSegment.mk 0 100 1).size = 100 ∧
    ((100 : ℤ) - 0 = 100) ∧
    (RangeSegment.mk (-10) 7 1).size = 17 := by
  have hrr : r = RangeSegment.mk b e s := by
    simp only [mkStridedRangeSegment, if_neg hs, Except.ok.injEq] at hr
    exact hr.symm
  subst hrr
  refine ⟨rfl, ?_, by decide, by decide, by decide⟩
  simp only [RangeSegment.toList, RangeSegment.size]
  rcases lt_or_gt_of_ne hs with hneg | hpos
  · rw [if_neg (by omega : ¬ (0 : ℤ) < s)]
    exact iterDescFuel_length e s hneg _ b le_rfl
  · rw [if_pos hpos]
    exact iterAscFuel_length e s hpos _ b le_rfl

/-- Witness for C4 at the range `(0, 100)` with stride 1. -/
theorem rangeSegment_size_counts_iteration_witness :
    (RangeSegment.mk 0 100 1).size = max 0 (ceilDiv (100 - 0) 1) ∧
    (RangeSegment.mk 0 100 1).toList.length = (RangeSegment.mk 0 100 1).size.toNat :=
  ⟨(rangeSegment_size_counts_iteration 0 100 1 (by decide) _ rfl).1,
   (rangeSegment_size_counts_iteration 0 100 1 (by decide) _ rfl).2.1⟩

/-- C6: constructing a range with `begin > end` (e.g. `(20,19)` or `(0,-50)`)
is signaled immediately at construction as a recoverable error; it never
silently yields a usable range object. -/
theorem mkRangeSegment_backward_rejected (b e : ℤ) (h : e < b) :
    mkRangeSegment b e = Except.error RangeError.InvalidRangeError ∧
    (∀ r : RangeSegment, mkRangeSegment b e ≠ Except.ok r) ∧
    mkRangeSegment 20 19 = Except.error RangeError.InvalidRangeError ∧
    mkRangeSegment 0 (-50) = Except.error RangeError.InvalidRangeError := by
  refine ⟨by simp [mkRangeSegment, h], ?_, rfl, rfl⟩
  intro r hcontra
  simp [mkRangeSegment, h] at hcontra

/-- Witness for C6 at the backward range `(20, 19)`. -/
theorem mkRangeSegment_backward_rejected_witness :
    mkRangeSegment 20 19 = Except.error RangeError.InvalidRangeError :=
  (mkRangeSegment_backward_rejected 20 19 (by decide)).1

/-- C7: `slice(offset, length)` on a range returns a new range starting at
`begin + offset*stride` containing `length` elements (for range `(0,125)`,
`slice(10,100)` begins at 10 and ends at 110), and fails with `OutOfBoundsError`
when the requested slice would exceed the original range's extent. -/
theorem rangeSegment_slice_spec (r : RangeSegment) (offset length : ℤ)
    (hs : r.m_stride ≠ 0) :
    (0 ≤ offset → 0 ≤ length → offset + length ≤ r.size →
      ∃ s', r.slice offset length = Except.ok s' ∧
        s'.m_begin = r.m_begin + offset * r.m_stride ∧ s'.size = length) ∧
    (¬ (0 ≤ offset ∧ 0 ≤ length ∧ offset + length ≤ r.size) →
      r.slice offset length = Except.error RangeError.OutOfBoundsError) ∧
    (RangeSegment.mk 0 125 1).slice 10 100 = Except.ok (RangeSegment.mk 10 110 1) := by
  refine ⟨?_, ?_, rfl⟩
  · intro h1 h2 h3
    refine ⟨{ m_begin := r.m_begin + offset * r.m_stride,
              m_end := r.m_begin + offset * r.m_stride + length * r.m_stride,
              m_stride := r.m_stride }, ?_, rfl, ?_⟩
    · have hcond : 0 ≤ offset ∧ 0 ≤ length ∧ offset + length ≤ r.size := ⟨h1, h2, h3⟩
      simp only [RangeSegment.slice, if_pos hcond]
    · simp only [RangeSegment.size]
      have harith : r.m_begin + offset * r.m_stride + length * r.m_stride -
          (r.m_begin + offset * r.m_stride) = length * r.m_stride := by ring
      rw [harith, ceilDiv_mul_self _ _ hs]
      omega
  · intro h
    simp only [RangeSegment.slice, if_neg h]

/-- Witness for C7 at the range `(0, 125)` sliced at offset 10, length 100. -/
theorem rangeSegment_slice_spec_witness :
    ∃ s', (RangeSegment.mk 0 125 1).slice 10 100 = Except.ok s' ∧
      s'.m_begin = (RangeSegment.mk 0 125 1).m_begin + 10 * (RangeSegment.mk 0 125 1).m_stride ∧
      s'.size = 100 :=
  (rangeSegment_slice_spec (RangeSegment.mk 0 125 1) 10 100 (by decide)).1
    (by decide) (by decide) (by decide)

/- ### TensorTileExec, src/include/RAJA/pattern/tensor/internal/TensorTileExec.hpp -/

/-- The tile object mutated in place by `TensorTileExec::exec`: per-dimension
`m_begin[d]` and `m_size[d]`.  The full/partial distinction of the C++ tile
lives in its static type (`make_tensor_tile_partial` is a reference cast), so
it is threaded separately as a `Bool` rather than stored. -/
structure TTile where
  m_begin : ℕ → ℤ
  m_size : ℕ → ℤ

/-- Assignment `tile.m_begin[d] = v`. -/
def TTile.setBegin (t : TTile) (d : ℕ) (v : ℤ) : TTile :=
  { t with m_begin := fun i => if i = d then v else t.m_begin i }

/-- Assignment `tile.m_size[d] = v`. -/
def TTile.setSize (t : TTile) (d : ℕ) (v : ℤ) : TTile :=
  { t with m_size := fun i => if i = d then v else t.m_size i }

theorem TTile.setBegin_begin (t : TTile) (d : ℕ) (v : ℤ) : (t.setBegin d v).m_begin d = v := by
  simp [TTile.setBegin]

theorem TTile.setBegin_size (t : TTile) (d : ℕ) (v : ℤ) : (t.setBegin d v).m_size = t.m_size :=
  rfl

theorem TTile.setSize_size (t : TTile) (d : ℕ) (v : ℤ) : (t.setSize d v).m_size d = v := by
  simp [TTile.setSize]

theorem TTile.setSize_begin (t : TTile) (d : ℕ) (v : ℤ) : (t.setSize d v).m_begin = t.m_begin :=
  rfl

/-- The full-tile `for` loop of `TensorTileExec::exec` (lines 59-68): while
`tile.m_begin[DIM0] + T ≤ orig_begin + orig_size` run the inner tiling loop,
then advance `tile.m_begin[DIM0]` by the native chunk width
`T = STORAGE::s_dim_elem(DIM0)`.  `inner` is the state transformation of
`inner_t::exec`; the returned list records the tile (and its static
full/partial tag) at each inner invocation, in order.  Structural on a fuel
argument so the definition evaluates; since `T ≥ 1`, fuel
`orig_size.toNat + 1` always suffices. -/
def fullTileLoop (T : ℤ) (d : ℕ) (inner : TTile → Bool → TTile) (bound : ℤ) (flag : Bool) :
    ℕ → TTile → TTile × List (TTile × Bool)
  | 0, tile => (tile, [])
  | fuel + 1, tile =>
    if tile.m_begin d + T ≤ bound then
      let tile1 := inner tile flag
      let tile2 := tile1.setBegin d (tile1.m_begin d + T)
      let res := fullTileLoop T d inner bound flag fuel tile2
      (res.1, (tile, flag) :: res.2)
    else (tile, [])

/-- The postamble of `TensorTileExec::exec` (lines 70-100): if the swept begin
has not reached `orig_begin + orig_size`, demote the tile to a partial tile,
store its size, set the size to the remainder, run the inner executor, restore
the size; in either case reset `tile.m_begin[DIM0]` to the original begin. -/
def tileExecPostamble (d : ℕ) (inner : TTile → Bool → TTile) (orig_begin orig_size : ℤ)
    (res : TTile × List (TTile × Bool)) : TTile × List (TTile × Bool) :=
  if res.1.m_begin d < orig_begin + orig_size then
    (((inner (res.1.setSize d (orig_begin + orig_size - res.1.m_begin d)) false).setSize d
        (res.1.m_size d)).setBegin d orig_begin,
     res.2 ++ [(res.1.setSize d (orig_begin + orig_size - res.1.m_begin d), false)])
  else
    (res.1.setBegin d orig_begin, res.2)

/-- `TensorTileExec<STORAGE, idx_seq<DIM0, DIM_REST...>>::exec` (lines 50-101)
for one tiling dimension `d` with chunk width `T`, the inner executor
abstracted: the full-tile loop (starting the sweep at the original begin),
followed by the postamble and the begin reset. -/
def TensorTileExec_exec (T : ℤ) (d : ℕ) (inner : TTile → Bool → TTile)
    (otile tile : TTile) (flag : Bool) : TTile × List (TTile × Bool) :=
  tileExecPostamble d inner (otile.m_begin d) (otile.m_size d)
    (fullTileLoop T d inner (otile.m_begin d + otile.m_size d) flag
      ((otile.m_size d).toNat + 1) (tile.setBegin d (otile.m_begin d)))

theorem ceilDiv_eq_ediv_add (L T : ℤ) (hT : 0 < T) :
    ceilDiv L T = L / T + (if L % T = 0 then 0 else 1) := by
  rw [ceilDiv_pos_den _ _ hT]
  have h := Int.ediv_add_emod L T
  have hr0 : 0 ≤ L % T := Int.emod_nonneg L (by omega)
  have hrT : L % T < T := Int.emod_lt_of_pos L hT
  by_cases hz : L % T = 0
  · rw [if_pos hz]
    have hx : L + T - 1 = (T - 1) + (L / T) * T := by
      have : (L / T) * T = T * (L / T) := by ring
      omega
    rw [hx, Int.add_mul_ediv_right _ _ (by omega : T ≠ 0),
      Int.ediv_eq_zero_of_lt (by omega) (by omega)]
    omega
  · rw [if_neg hz]
    have hx : L + T - 1 = (L % T - 1) + (L / T + 1) * T := by
      have : (L / T + 1) * T = T * (L / T) + T := by ring
      omega
    rw [hx, Int.add_mul_ediv_right _ _ (by omega : T ≠ 0),
      Int.ediv_eq_zero_of_lt (by omega) (by omega)]
    omega

theorem fullTileLoop_spec (T : ℤ) (d : ℕ) (inner : TTile → Bool → TTile) (bound : ℤ)
    (flag : Bool) (hT : 0 < T)
    (hb : ∀ t f, (inner t f).m_begin d = t.m_begin d)
    (hs : ∀ t f, (inner t f).m_size d = t.m_size d) :
    ∀ (fuel : ℕ) (t : TTile), ((bound - t.m_begin d) / T).toNat < fuel →
      (fullTileLoop T d inner bound flag fuel t).1.m_begin d =
        t.m_begin d + (((bound - t.m_begin d) / T).toNat : ℤ) * T ∧
      (fullTileLoop T d inner bound flag fuel t).1.m_size d = t.m_size d ∧
      ((fullTileLoop T d inner bound flag fuel t).2.map fun p => (p.1.m_size d, p.2)) =
        List.replicate ((bound - t.m_begin d) / T).toNat (t.m_size d, flag) := by
  intro fuel
  induction fuel with
  | zero => intro t ht; omega
  | succ fuel ih =>
    intro t ht
    by_cases hcond : t.m_begin d + T ≤ bound
    · have hone : (1 : ℤ) ≤ (bound - t.m_begin d) / T := by
        rw [Int.le_ediv_iff_mul_le hT]
        omega
      set b := t.m_begin d with hbdef
      have hb2 : ((inner t flag).setBegin d ((inner t flag).m_begin d + T)).m_begin d =
          b + T := by
        rw [TTile.setBegin_begin, hb t flag]
      have hs2 : ((inner t flag).setBegin d ((inner t flag).m_begin d + T)).m_size d =
          t.m_size d := by
        rw [TTile.setBegin_size, hs t flag]
      have hstep : (bound - (b + T)) / T = (bound - b) / T - 1 := by
        have hx : bound - (b + T) = (bound - b) + (-1) * T := by ring
        rw [hx, Int.add_mul_ediv_right _ _ (by omega : T ≠ 0)]
        ring
      have hnat : ((bound - (b + T)) / T).toNat = ((bound - b) / T).toNat - 1 := by
        omega
      have hfuel : ((bound - ((inner t flag).setBegin d
          ((inner t flag).m_begin d + T)).m_begin d) / T).toNat < fuel := by
        rw [hb2, hnat]
        omega
      have ihres := ih _ hfuel
      rw [hb2, hs2, hnat] at ihres
      simp only [fullTileLoop, if_pos hcond]
      refine ⟨?_, ihres.2.1, ?_⟩
      · rw [ihres.1]
        have : ((((bound - b) / T).toNat - 1 : ℕ) : ℤ) = (((bound - b) / T).toNat : ℤ) - 1 := by
          omega
        rw [this]
        ring
      · simp only [List.map_cons, ihres.2.2]
        have hsucc : (t.m_size d, flag) ::
            List.replicate (((bound - b) / T).toNat - 1) (t.m_size d, flag) =
            List.replicate ((((bound - b) / T).toNat - 1) + 1) (t.m_size d, flag) :=
          (List.replicate_succ _ _).symm
        rw [hsucc]
        congr 1
        omega
    · have hzero : ((bound - t.m_begin d) / T).toNat = 0 := by
        have : (bound - t.m_begin d) / T < 1 := by
          by_contra hcon
          push_neg at hcon
          rw [Int.le_ediv_iff_mul_le hT] at hcon
          omega
        omega
      simp only [fullTileLoop, if_neg hcond, hzero]
      refine ⟨?_, ?_, ?_⟩ <;> simp

theorem tileExecPostamble_spec (d : ℕ) (inner : TTile → Bool → TTile) (ob L : ℤ)
    (res : TTile × List (TTile × Bool)) :
    (tileExecPostamble d inner ob L res).1.m_begin d = ob ∧
    (tileExecPostamble d inner ob L res).1.m_size d = res.1.m_size d ∧
    (tileExecPostamble d inner ob L res).2 =
      (if res.1.m_begin d < ob + L then
        res.2 ++ [(res.1.setSize d (ob + L - res.1.m_begin d), false)]
       else res.2) := by
  by_cases hc : res.1.m_begin d < ob + L
  · simp only [tileExecPostamble, if_pos hc]
    refine ⟨TTile.setBegin_begin _ _ _, ?_, ?_⟩
    · have h1 : ∀ (t : TTile) (v : ℤ), (t.setBegin d v).m_size d = t.m_size d := fun t v => rfl
      rw [h1, TTile.setSize_size]
    · trivial
  · simp only [tileExecPostamble, if_neg hc]
    refine ⟨TTile.setBegin_begin _ _ _, ?_, ?_⟩ <;> trivial

/-- Master characterization of `TensorTileExec_exec` for one dimension `d`:
final begin and size of the tile, and the list of (size, tag) records at
the inner invocations. -/
theorem TensorTileExec_exec_spec (T : ℤ) (d : ℕ) (inner : TTile → Bool → TTile)
    (otile tile : TTile) (flag : Bool) (hT : 0 < T) (hL : 0 ≤ otile.m_size d)
    (hb : ∀ t f, (inner t f).m_begin d = t.m_begin d)
    (hs : ∀ t f, (inner t f).m_size d = t.m_size d) :
    (TensorTileExec_exec T d inner otile tile flag).1.m_begin d = otile.m_begin d ∧
    (TensorTileExec_exec T d inner otile tile flag).1.m_size d = tile.m_size d ∧
    ((TensorTileExec_exec T d inner otile tile flag).2.map fun p => (p.1.m_size d, p.2)) =
      List.replicate (otile.m_size d / T).toNat (tile.m_size d, flag) ++
        (if otile.m_size d % T = 0 then []
         else [(otile.m_size d % T, false)]) := by
  have hr0 : 0 ≤ otile.m_size d % T := Int.emod_nonneg _ (by omega)
  have hrT : otile.m_size d % T < T := Int.emod_lt_of_pos _ hT
  have hde : T * (otile.m_size d / T) + otile.m_size d % T = otile.m_size d :=
    Int.ediv_add_emod _ T
  have hq0 : 0 ≤ otile.m_size d / T := Int.ediv_nonneg hL (le_of_lt hT)
  have hqle : otile.m_size d / T ≤ otile.m_size d := Int.ediv_le_self T hL
  have hfuel : ((otile.m_begin d + otile.m_size d -
      (tile.setBegin d (otile.m_begin d)).m_begin d) / T).toNat <
      (otile.m_size d).toNat + 1 := by
    rw [TTile.setBegin_begin,
      show otile.m_begin d + otile.m_size d - otile.m_begin d = otile.m_size d from by ring]
    omega
  obtain ⟨hfin_b, hfin_s, hfin_l⟩ := fullTileLoop_spec T d inner
    (otile.m_begin d + otile.m_size d) flag hT hb hs
    ((otile.m_size d).toNat + 1) (tile.setBegin d (otile.m_begin d)) hfuel
  rw [TTile.setBegin_begin,
    show otile.m_begin d + otile.m_size d - otile.m_begin d = otile.m_size d from by ring]
    at hfin_b hfin_l
  have hsz : (tile.setBegin d (otile.m_begin d)).m_size d = tile.m_size d := rfl
  rw [hsz] at hfin_s hfin_l
  have hcast : (((otile.m_size d / T).toNat : ℤ)) = otile.m_size d / T :=
    Int.toNat_of_nonneg hq0
  have hbegin_val : otile.m_begin d + (((otile.m_size d / T).toNat : ℤ)) * T =
      otile.m_begin d + otile.m_size d - otile.m_size d % T := by
    rw [hcast]
    have : (otile.m_size d / T) * T = T * (otile.m_size d / T) := by ring
    omega
  rw [hbegin_val] at hfin_b
  have hpost := tileExecPostamble_spec d inner (otile.m_begin d) (otile.m_size d)
    (fullTileLoop T d inner (otile.m_begin d + otile.m_size d) flag
      ((otile.m_size d).toNat + 1) (tile.setBegin d (otile.m_begin d)))
  simp only [TensorTileExec_exec]
  refine ⟨hpost.1, ?_, ?_⟩
  · rw [hpost.2.1]
    exact hfin_s
  · rw [hpost.2.2, hfin_b]
    by_cases hrem : otile.m_size d % T = 0
    · rw [if_neg (by omega), hfin_l, if_pos hrem, List.append_nil]
    · rw [if_pos (by omega), List.map_append, hfin_l, if_neg hrem]
      congr 1
      have hv : otile.m_begin d + otile.m_size d -
          (otile.m_begin d + otile.m_size d - otile.m_size d % T) = otile.m_size d % T := by
        ring
      rw [List.map_cons, List.map_nil, TTile.setSize_size, hv]

/- ### Claim theorems: tensor tiling -/

/-- C1: for an original tile of length `L` in dimension `d` and native chunk
width `T`, `TensorTileExec::exec` invokes the inner executor on exactly
`ceil(L/T)` sub-tiles for that dimension, whose sizes sum exactly to `L`, every
sub-tile of size `T` except at most one remainder sub-tile of size `L mod T`,
dispatched (as a partial tile) if and only if `L mod T` is nonzero. -/
theorem tensorTileExec_tiling_completeness (T : ℤ) (d : ℕ) (inner : TTile → Bool → TTile)
    (otile tile : TTile) (hT : 0 < T) (hL : 0 ≤ otile.m_size d)
    (hb : ∀ t f, (inner t f).m_begin d = t.m_begin d)
    (hs : ∀ t f, (inner t f).m_size d = t.m_size d)
    (htile : tile.m_size d = T) :
    ((TensorTileExec_exec T d inner otile tile true).2.map fun p => p.1.m_size d) =
      List.replicate (otile.m_size d / T).toNat T ++
        (if otile.m_size d % T = 0 then [] else [otile.m_size d % T]) ∧
    (TensorTileExec_exec T d inner otile tile true).2.length = (ceilDiv (otile.m_size d) T).toNat ∧
    ((TensorTileExec_exec T d inner otile tile true).2.map fun p => p.1.m_size d).sum =
      otile.m_size d ∧
    ((∃ p ∈ (TensorTileExec_exec T d inner otile tile true).2,
        p.1.m_size d = otile.m_size d % T ∧ p.2 = false) ↔ otile.m_size d % T ≠ 0) := by
  have hmaster := TensorTileExec_exec_spec T d inner otile tile true hT hL hb hs
  obtain ⟨-, -, hrec⟩ := hmaster
  rw [htile] at hrec
  set L := otile.m_size d with hLdef
  set invs := (TensorTileExec_exec T d inner otile tile true).2 with hinvs
  have hr0 : 0 ≤ L % T := Int.emod_nonneg L (by omega)
  have hrT : L % T < T := Int.emod_lt_of_pos L hT
  have hde : T * (L / T) + L % T = L := Int.ediv_add_emod L T
  have hq0 : 0 ≤ L / T := Int.ediv_nonneg hL (le_of_lt hT)
  have hsizes : (invs.map fun p => p.1.m_size d) =
      List.replicate (L / T).toNat T ++ (if L % T = 0 then [] else [L % T]) := by
    have : (invs.map fun p => p.1.m_size d) =
        (invs.map fun p => (p.1.m_size d, p.2)).map Prod.fst := by
      simp [List.map_map]
    rw [this, hrec]
    by_cases hz : L % T = 0 <;> simp [hz, List.map_replicate]
  have hcastq : (((L / T).toNat : ℤ)) = L / T := Int.toNat_of_nonneg hq0
  refine ⟨hsizes, ?_, ?_, ?_⟩
  · have hlen : invs.length = (invs.map fun p => p.1.m_size d).length := by
      simp
    rw [hlen, hsizes, List.length_append, List.length_replicate, ceilDiv_eq_ediv_add L T hT]
    by_cases hz : L % T = 0
    · rw [if_pos hz, if_pos hz]
      simp only [List.length_nil]
      omega
    · rw [if_neg hz, if_neg hz]
      simp only [List.length_cons, List.length_nil]
      omega
  · rw [hsizes]
    by_cases hz : L % T = 0
    · rw [if_pos hz, List.append_nil, List.sum_replicate, nsmul_eq_mul, hcastq]
      have hmul : (L / T) * T = T * (L / T) := by ring
      omega
    · rw [if_neg hz, List.sum_append, List.sum_replicate, nsmul_eq_mul, hcastq,
        List.sum_cons, List.sum_nil]
      have hmul : (L / T) * T = T * (L / T) := by ring
      omega
  · constructor
    · rintro ⟨p, hp, hpsz, hpflag⟩
      intro hz
      have hmem : (p.1.m_size d, p.2) ∈ invs.map fun q => (q.1.m_size d, q.2) :=
        List.mem_map_of_mem _ hp
      rw [hrec, if_pos hz] at hmem
      simp only [List.append_nil, List.mem_replicate] at hmem
      have := hmem.2
      rw [hpsz, hz] at this
      have : (0 : ℤ) = T := congrArg Prod.fst this
      omega
    · intro hz
      have hmem : (L % T, false) ∈ invs.map fun q => (q.1.m_size d, q.2) := by
        rw [hrec, if_neg hz]
        simp
      obtain ⟨p, hp, hpe⟩ := List.mem_map.mp hmem
      refine ⟨p, hp, ?_, ?_⟩
      · exact congrArg Prod.fst hpe
      · exact congrArg Prod.snd hpe

/-- Witness for C1: chunk width 4, original length 11, identity inner executor:
sizes are `[4, 4, 3]`. -/
theorem tensorTileExec_tiling_completeness_witness :
    ((TensorTileExec_exec 4 0 (fun t _ => t) (TTile.mk (fun _ => 0) (fun _ => 11))
        (TTile.mk (fun _ => 0) (fun _ => 4)) true).2.map fun p => p.1.m_size 0) =
      List.replicate (((11 : ℤ) / 4)).toNat 4 ++
        (if (11 : ℤ) % 4 = 0 then [] else [(11 : ℤ) % 4]) :=
  (tensorTileExec_tiling_completeness 4 0 (fun t _ => t)
    (TTile.mk (fun _ => 0) (fun _ => 11)) (TTile.mk (fun _ => 0) (fun _ => 4))
    (by decide) (by decide) (fun _ _ => rfl) (fun _ _ => rfl) rfl).1

/-- C8: when `TensorTileExec::exec` for tiling dimension `d` returns, the tile's
`m_begin[d]` equals the original begin it started with and `m_size[d]` is
restored to the value it had before any postamble shrinking. -/
theorem tensorTileExec_resets_tile (T : ℤ) (d : ℕ) (inner : TTile → Bool → TTile)
    (otile tile : TTile) (flag : Bool) (hT : 0 < T) (hL : 0 ≤ otile.m_size d)
    (hb : ∀ t f, (inner t f).m_begin d = t.m_begin d)
    (hs : ∀ t f, (inner t f).m_size d = t.m_size d) :
    (TensorTileExec_exec T d inner otile tile flag).1.m_begin d = otile.m_begin d ∧
    (TensorTileExec_exec T d inner otile tile flag).1.m_size d = tile.m_size d :=
  ⟨(TensorTileExec_exec_spec T d inner otile tile flag hT hL hb hs).1,
   (TensorTileExec_exec_spec T d inner otile tile flag hT hL hb hs).2.1⟩

/-- Witness for C8: chunk width 3, original tile begin 5 and length 7, identity
inner executor. -/
theorem tensorTileExec_resets_tile_witness :
    (TensorTileExec_exec 3 0 (fun t _ => t) (TTile.mk (fun _ => 5) (fun _ => 7))
        (TTile.mk (fun _ => 5) (fun _ => 3)) true).1.m_begin 0 = 5 ∧
    (TensorTileExec_exec 3 0 (fun t _ => t) (TTile.mk (fun _ => 5) (fun _ => 7))
        (TTile.mk (fun _ => 5) (fun _ => 3)) true).1.m_size 0 = 3 :=
  tensorTileExec_resets_tile 3 0 (fun t _ => t)
    (TTile.mk (fun _ => 5) (fun _ => 7)) (TTile.mk (fun _ => 5) (fun _ => 3)) true
    (by decide) (by decide) (fun _ _ => rfl) (fun _ _ => rfl)

/- ### Host forall loops, src/include/RAJA/policy/openmp/forall.hpp -/

/-- The loop body shared by every host `forall_impl` variant
(`for (i = 0; i < distance_it; ++i) loop_body(begin_it[i]);`), recorded as the
ordered list of arguments the loop body is invoked on.  `i` is the current
loop counter and the remaining trip count is structural. -/
def forallLoopFrom (begin_it : ℕ → ℤ) : ℕ → ℕ → List ℤ
  | _, 0 => []
  | i, remaining + 1 => begin_it i :: forallLoopFrom begin_it (i + 1) remaining

/-- The invocation trace of one host `forall_impl` loop over
`[0, distance)`. -/
def forall_impl_trace (begin_it : ℕ → ℤ) (distance : ℕ) : List ℤ :=
  forallLoopFrom begin_it 0 distance

/-- The iteration positions an OpenMP `omp for` schedule assigns to worker `w`
when the canonical loop `[0, distance)` is partitioned by an assignment
`asg : position → worker`: the worker executes its assigned iterations of the
shared ascending loop counter, hence in increasing position order. -/
def workerPositions (asg : ℕ → ℕ) (distance w : ℕ) : List ℕ :=
  (List.range distance).filter fun i => asg i = w

theorem forallLoopFrom_eq_map (begin_it : ℕ → ℤ) :
    ∀ (remaining i : ℕ),
      forallLoopFrom begin_it i remaining =
        (List.range remaining).map fun k => begin_it (i + k) := by
  intro remaining
  induction remaining with
  | zero => intro i; rfl
  | succ n ih =>
    intro i
    rw [List.range_succ_eq_map, List.map_cons, List.map_map]
    show begin_it i :: forallLoopFrom begin_it (i + 1) n = _
    rw [ih (i + 1)]
    refine congrArg₂ _ (by rw [Nat.add_zero]) ?_
    apply List.map_congr_left
    intro a _
    simp only [Function.comp_apply]
    congr 1
    omega

theorem forall_impl_trace_eq (begin_it : ℕ → ℤ) (distance : ℕ) :
    forall_impl_trace begin_it distance = (List.range distance).map begin_it := by
  rw [forall_impl_trace, forallLoopFrom_eq_map]
  apply List.map_congr_left
  intro a _
  rw [Nat.zero_add]

/- ### Claim theorem: forall loop ordering -/

/-- C5: every host `forall_impl` loop variant invokes the loop body exactly
once per position `i ∈ [0, distance)` on element `begin_it[i]`, in increasing
position order; under an OpenMP schedule each position is executed by exactly
the worker it is assigned to and one worker's positions are strictly
increasing; sequentially over `[0,100)` the body sees `0,1,...,99` in that
exact order. -/
theorem forall_impl_order_preservation (begin_it : ℕ → ℤ) (distance : ℕ)
    (asg : ℕ → ℕ) (w : ℕ) :
    forall_impl_trace begin_it distance = (List.range distance).map begin_it ∧
    (∀ i, i < distance → (forall_impl_trace begin_it distance).get? i = some (begin_it i)) ∧
    List.Sorted (· < ·) (workerPositions asg distance w) ∧
    (∀ i, i < distance → (i ∈ workerPositions asg distance w ↔ asg i = w)) ∧
    forall_impl_trace (fun i => (i : ℤ)) 100 = (List.range 100).map (fun i => (i : ℤ)) := by
  refine ⟨forall_impl_trace_eq _ _, ?_, ?_, ?_, forall_impl_trace_eq _ _⟩
  · intro i hi
    rw [forall_impl_trace_eq]
    rw [List.get?_eq_getElem?, List.getElem?_map, List.getElem?_range hi]
    rfl
  · exact (List.pairwise_lt_range distance).filter _
  · intro i hi
    simp [workerPositions, List.mem_filter, List.mem_range, hi]

/-- Witness for C5: two workers, even positions to worker 0, over
`distance = 6`. -/
theorem forall_impl_order_preservation_witness :
    (forall_impl_trace (fun i => (i : ℤ)) 6).get? 3 = some ((3 : ℕ) : ℤ) ∧
    (3 ∈ workerPositions (fun i => i % 2) 6 1 ↔ (3 : ℕ) % 2 = 1) :=
  ⟨(forall_impl_order_preservation (fun i => (i : ℤ)) 6 (fun i => i % 2) 1).2.1 3 (by decide),
   (forall_impl_order_preservation (fun i => (i : ℤ)) 6 (fun i => i % 2) 1).2.2.2.1 3 (by decide)⟩

/- ### InitScopedMem statement executor, src/include/RAJA/pattern/kernel/Lambda.hpp -/

/-- The `Data` state threaded through `StatementExecutor<InitScopedMem>`: the
parameter tuple is modelled by the `m_arrayPtr` of each scoped-memory
parameter (`none` = `nullptr`, `some a` = pointing at scratch storage with
address `a`), and `inner_state` stands for the rest of the execution data. -/
structure ScopedData (σ : Type) where
  param_ptr : ℕ → Option ℕ
  inner_state : σ

/-- Assignment `camp::get<Pos>(data.param_tuple).m_arrayPtr = p`. -/
def ScopedData.setPtr {σ : Type} (data : ScopedData σ) (pos : ℕ) (p : Option ℕ) :
    ScopedData σ :=
  { data with param_ptr := fun q => if q = pos then p else data.param_ptr q }

/-- `initMem<Pos, others...>` (lines 100-118): point each listed parameter's
`m_arrayPtr` at freshly established scratch storage (`ScopedArray`, address
`fresh pos`), then — in the base case, with all listed pointers set — execute
the enclosed statement list `stmts`. -/
def initMem {σ : Type} (fresh : ℕ → ℕ) (stmts : ScopedData σ → ScopedData σ) :
    List ℕ → ScopedData σ → ScopedData σ
  | [], data => stmts data
  | pos :: others, data => initMem fresh stmts others (data.setPtr pos (some (fresh pos)))

/-- `setPtrToNull<Pos, others...>` (lines 121-129): set each listed
parameter's `m_arrayPtr` to `nullptr`. -/
def setPtrToNull {σ : Type} : List ℕ → ScopedData σ → ScopedData σ
  | [], data => data
  | pos :: others, data => setPtrToNull others (data.setPtr pos none)

/-- `StatementExecutor<InitScopedMem<idx_seq<Indices...>, EnclosedStmts...>>::exec`
(lines 131-139): initialize the scoped arrays and execute the statements, then
set the array pointers to null. -/
def initScopedMemExec {σ : Type} (indices : List ℕ) (fresh : ℕ → ℕ)
    (stmts : ScopedData σ → ScopedData σ) (data : ScopedData σ) : ScopedData σ :=
  setPtrToNull indices (initMem fresh stmts indices data)

theorem initMem_spec {σ : Type} (fresh : ℕ → ℕ) (stmts : ScopedData σ → ScopedData σ) :
    ∀ (indices : List ℕ) (data : ScopedData σ),
      initMem fresh stmts indices data =
        stmts { param_ptr := fun q => if q ∈ indices then some (fresh q) else data.param_ptr q,
                inner_state := data.inner_state } := by
  intro indices
  induction indices with
  | nil =>
    intro data
    simp only [initMem, List.not_mem_nil, if_false]
  | cons pos others ih =>
    intro data
    rw [initMem, ih]
    congr 1
    refine congrArg₂ _ ?_ rfl
    funext q
    by_cases hq : q ∈ others
    · simp [hq, List.mem_cons]
    · by_cases hqp : q = pos
      · subst hqp
        simp [hq, ScopedData.setPtr]
      · simp [hq, hqp, ScopedData.setPtr, List.mem_cons]

theorem setPtrToNull_spec {σ : Type} :
    ∀ (indices : List ℕ) (data : ScopedData σ),
      setPtrToNull indices data =
        { param_ptr := fun q => if q ∈ indices then none else data.param_ptr q,
          inner_state := data.inner_state } := by
  intro indices
  induction indices with
  | nil =>
    intro data
    simp only [setPtrToNull, List.not_mem_nil, if_false]
  | cons pos others ih =>
    intro data
    rw [setPtrToNull, ih]
    refine congrArg₂ _ ?_ rfl
    funext q
    by_cases hq : q ∈ others
    · simp [hq, List.mem_cons]
    · by_cases hqp : q = pos
      · subst hqp
        simp [hq, ScopedData.setPtr]
      · simp [hq, hqp, ScopedData.setPtr, List.mem_cons]

/- ### Claim theorem: scoped memory lifetime -/

/-- C9: executing an `InitScopedMem` statement first points every listed
scoped-memory parameter's `m_arrayPtr` at freshly established scratch storage,
then executes the enclosed statement list on that state, and after that
execution sets every listed parameter's `m_arrayPtr` to `nullptr`, so the
scratch storage established for one execution is never visible through the
parameter tuple afterwards. -/
theorem initScopedMem_scratch_lifetime {σ : Type} (indices : List ℕ) (fresh : ℕ → ℕ)
    (stmts : ScopedData σ → ScopedData σ) (data : ScopedData σ) :
    initScopedMemExec indices fresh stmts data =
      { param_ptr := fun q => if q ∈ indices then none
          else (stmts { param_ptr := fun q => if q ∈ indices then some (fresh q)
                          else data.param_ptr q,
                        inner_state := data.inner_state }).param_ptr q,
        inner_state := (stmts { param_ptr := fun q => if q ∈ indices then some (fresh q)
                                  else data.param_ptr q,
                                inner_state := data.inner_state }).inner_state } ∧
    (∀ p ∈ indices, (initScopedMemExec indices fresh stmts data).param_ptr p = none) := by
  have h : initScopedMemExec indices fresh stmts data =
      { param_ptr := fun q => if q ∈ indices then none
          else (stmts { param_ptr := fun q => if q ∈ indices then some (fresh q)
                          else data.param_ptr q,
                        inner_state := data.inner_state }).param_ptr q,
        inner_state := (stmts { param_ptr := fun q => if q ∈ indices then some (fresh q)
                                  else data.param_ptr q,
                                inner_state := data.inner_state }).inner_state } := by
    rw [initScopedMemExec, initMem_spec, setPtrToNull_spec]
  refine ⟨h, ?_⟩
  intro p hp
  rw [h]
  simp [hp]

/-- Witness for C9: two scoped parameters `[0, 2]`, statements that overwrite
parameter 0's pointer; both listed pointers are null afterwards. -/
theorem initScopedMem_scratch_lifetime_witness :
    (initScopedMemExec [0, 2] (fun p => 100 + p)
        (fun d => d.setPtr 0 (some 77)) (ScopedData.mk (fun _ => none) (0 : ℕ))).param_ptr 0 =
      none :=
  (initScopedMem_scratch_lifetime [0, 2] (fun p => 100 + p)
    (fun d => d.setPtr 0 (some 77)) (ScopedData.mk (fun _ => none) (0 : ℕ))).2 0 (by decide)

/- ### Reduction example, src/examples/launch-param-reductions.cpp, with the
reduction engine modelled from the spec (the ValOp/ValLocOp implementation is
not among the source files). -/

/-- `N` of the reduction example. -/
def reductionN : ℕ := 1000000

/-- `minloc_ref = N / 2` of the reduction example. -/
def minloc_ref : ℕ := reductionN / 2

/-- `maxloc_ref = N / 2 + 1` of the reduction example. -/
def maxloc_ref : ℕ := reductionN / 2 + 1

/-- `std::numeric_limits<int>::max()`. -/
def INT_MAX : ℤ := 2147483647

/-- `std::numeric_limits<int>::min()`. -/
def INT_MIN : ℤ := -2147483648

/-- The initialization loop: `a[i] = 1` for even `i`, `a[i] = -1` for odd. -/
def arrInit : ℕ → ℤ := fun i => if i % 2 = 0 then 1 else -1

/-- A single array store `a[j] = v`. -/
def store (a : ℕ → ℤ) (j : ℕ) (v : ℤ) : ℕ → ℤ :=
  fun i => if i = j then v else a i

/-- The example's array after `a[0] = 3; a[minloc_ref] = -100;
a[maxloc_ref] = 100;`. -/
def reductionArray : ℕ → ℤ :=
  store (store (store arrInit 0 3) minloc_ref (-100)) maxloc_ref 100

/-- The index sequence of `RAJA::loop` over `arange(0, N)`. -/
def canonicalIndices : List ℕ := List.range reductionN

/-- A value/location pair as held by a `ValLocOp` reducer. -/
structure VL where
  val : ℤ
  loc : ℤ
deriving Repr, DecidableEq

/-- Modelled from the spec: the sequential sum reducer, `_sum += a[i]` folded
over the loop's indices from the seed 0. -/
def seqSum (a : ℕ → ℤ) (l : List ℕ) : ℤ :=
  l.foldl (fun s i => s + a i) 0

/-- Modelled from the spec: the sequential min reducer, `_min.min(a[i])` folded
from the seed `INT_MAX`. -/
def seqMin (a : ℕ → ℤ) (l : List ℕ) : ℤ :=
  l.foldl (fun s i => min s (a i)) INT_MAX

/-- Modelled from the spec: the sequential max reducer, `_max.max(a[i])` folded
from the seed `INT_MIN`. -/
def seqMax (a : ℕ → ℤ) (l : List ℕ) : ℤ :=
  l.foldl (fun s i => max s (a i)) INT_MIN

/-- One `minloc(a[i], i)` update: a strictly smaller value replaces the
current winner; on a tie the first index encountered wins (spec's tie-break
policy). -/
def minlocStep (a : ℕ → ℤ) (s : VL) (i : ℕ) : VL :=
  if a i < s.val then VL.mk (a i) i else s

/-- One `maxloc(a[i], i)` update, mirrored. -/
def maxlocStep (a : ℕ → ℤ) (s : VL) (i : ℕ) : VL :=
  if a i > s.val then VL.mk (a i) i else s

/-- Modelled from the spec: the sequential minloc reducer from the seed
`(INT_MAX, -1)`. -/
def seqMinLoc (a : ℕ → ℤ) (l : List ℕ) : VL :=
  l.foldl (minlocStep a) (VL.mk INT_MAX (-1))

/-- Modelled from the spec: the sequential maxloc reducer from the seed
`(INT_MIN, -1)`. -/
def seqMaxLoc (a : ℕ → ℤ) (l : List ℕ) : VL :=
  l.foldl (maxlocStep a) (VL.mk INT_MIN (-1))

/-- Modelled from the spec: the two-stage parallel merge of per-worker minloc
winners, applied across unit results in rank order with the same tie-break. -/
def mergeMinVL (s t : VL) : VL :=
  if t.val < s.val then t else s

/-- Two-stage parallel merge of per-worker maxloc winners. -/
def mergeMaxVL (s t : VL) : VL :=
  if t.val > s.val then t else s

/-- Modelled from the spec: a parallel backend partitions the index sequence
into per-worker chunks `P`; each worker folds its chunk from the seed, and the
partial results merge in rank order.  Parallel sum. -/
def parSum (a : ℕ → ℤ) (P : List (List ℕ)) : ℤ :=
  (P.map fun c => seqSum a c).foldl (fun s v => s + v) 0

/-- Parallel (two-stage) min. -/
def parMin (a : ℕ → ℤ) (P : List (List ℕ)) : ℤ :=
  (P.map fun c => seqMin a c).foldl (fun s v => min s v) INT_MAX

/-- Parallel (two-stage) max. -/
def parMax (a : ℕ → ℤ) (P : List (List ℕ)) : ℤ :=
  (P.map fun c => seqMax a c).foldl (fun s v => max s v) INT_MIN

/-- Parallel (two-stage) minloc. -/
def parMinLoc (a : ℕ → ℤ) (P : List (List ℕ)) : VL :=
  (P.map fun c => seqMinLoc a c).foldl mergeMinVL (VL.mk INT_MAX (-1))

/-- Parallel (two-stage) maxloc. -/
def parMaxLoc (a : ℕ → ℤ) (P : List (List ℕ)) : VL :=
  (P.map fun c => seqMaxLoc a c).foldl mergeMaxVL (VL.mk INT_MIN (-1))

/- ### Generic two-stage-merge agreement -/

theorem foldl_op_invariant {α β : Type} (op : β → α → β) (Q : β → Prop)
    (hQop : ∀ s x, Q s → Q (op s x)) :
    ∀ (l : List α) (s : β), Q s → Q (l.foldl op s) := by
  intro l
  induction l with
  | nil => intro s hQ; exact hQ
  | cons x l ih => intro s hQ; exact ih (op s x) (hQop s x hQ)

theorem foldl_merge_split {α β : Type} (op : β → α → β) (m : β → β → β) (e : β)
    (Q : β → Prop)
    (hQop : ∀ s x, Q s → Q (op s x)) (hQe : Q e)
    (h1 : ∀ s x, Q s → op s x = m s (op e x))
    (h2 : ∀ s, Q s → m s e = s)
    (h3 : ∀ s t u, Q s → Q t → Q u → m (m s t) u = m s (m t u)) :
    ∀ (l : List α) (s : β), Q s → l.foldl op s = m s (l.foldl op e) := by
  intro l
  induction l with
  | nil => intro s hQ; exact (h2 s hQ).symm
  | cons x l ih =>
    intro s hQ
    have hQs : Q (op s x) := hQop s x hQ
    have hQex : Q (op e x) := hQop e x hQe
    have hQF : Q (l.foldl op e) := foldl_op_invariant op Q hQop l e hQe
    calc (x :: l).foldl op s = l.foldl op (op s x) := rfl
      _ = m (op s x) (l.foldl op e) := ih (op s x) hQs
      _ = m (m s (op e x)) (l.foldl op e) := by rw [h1 s x hQ]
      _ = m s (m (op e x) (l.foldl op e)) := h3 _ _ _ hQ hQex hQF
      _ = m s (l.foldl op (op e x)) := by rw [ih (op e x) hQex]
      _ = m s ((x :: l).foldl op e) := rfl

theorem twoStage_eq_flatten {α β : Type} (op : β → α → β) (m : β → β → β) (e : β)
    (Q : β → Prop)
    (hQop : ∀ s x, Q s → Q (op s x)) (hQe : Q e)
    (h1 : ∀ s x, Q s → op s x = m s (op e x))
    (h2 : ∀ s, Q s → m s e = s)
    (h3 : ∀ s t u, Q s → Q t → Q u → m (m s t) u = m s (m t u)) :
    ∀ (P : List (List α)) (s : β), Q s →
      (P.map fun c => c.foldl op e).foldl m s = P.flatten.foldl op s := by
  intro P
  induction P with
  | nil => intro s _; rfl
  | cons c P ih =>
    intro s hQ
    have hQc : Q (c.foldl op e) := foldl_op_invariant op Q hQop c e hQe
    have hQm : Q (m s (c.foldl op e)) := by
      rw [← foldl_merge_split op m e Q hQop hQe h1 h2 h3 c s hQ]
      exact foldl_op_invariant op Q hQop c s hQ
    calc ((c :: P).map fun d => d.foldl op e).foldl m s
        = (P.map fun d => d.foldl op e).foldl m (m s (c.foldl op e)) := rfl
      _ = P.flatten.foldl op (m s (c.foldl op e)) := ih _ hQm
      _ = P.flatten.foldl op (c.foldl op s) := by
          rw [← foldl_merge_split op m e Q hQop hQe h1 h2 h3 c s hQ]
      _ = (c :: P).flatten.foldl op s := by
          rw [List.flatten_cons, List.foldl_append]

/- ### Concrete facts about the example's array -/

theorem reductionArray_values (i : ℕ) :
    reductionArray i = 3 ∨ reductionArray i = -100 ∨ reductionArray i = 100 ∨
    reductionArray i = 1 ∨ reductionArray i = -1 := by
  simp only [reductionArray, store, arrInit]
  split_ifs <;> tauto

theorem reductionArray_at_minloc : reductionArray minloc_ref = -100 := by
  simp only [reductionArray, store]
  rw [if_neg (by decide : ¬ minloc_ref = maxloc_ref), if_pos trivial]

theorem reductionArray_at_maxloc : reductionArray maxloc_ref = 100 := by
  simp only [reductionArray, store]
  rw [if_pos trivial]

theorem reductionArray_unique_min (i : ℕ) (hi : i ≠ minloc_ref) :
    -100 < reductionArray i := by
  simp only [reductionArray, store, arrInit]
  split_ifs <;> omega

theorem reductionArray_unique_max (i : ℕ) (hi : i ≠ maxloc_ref) :
    reductionArray i < 100 := by
  simp only [reductionArray, store, arrInit]
  rw [if_neg hi]
  split_ifs <;> omega

/- ### Sum characterization -/

/-- Running sum of `a[0] + ... + a[n-1]`. -/
def sumUpTo (a : ℕ → ℤ) : ℕ → ℤ
  | 0 => 0
  | n + 1 => sumUpTo a n + a n

theorem foldl_add_eq (a : ℕ → ℤ) :
    ∀ (l : List ℕ) (s : ℤ), l.foldl (fun s i => s + a i) s = s + (l.map a).sum := by
  intro l
  induction l with
  | nil => intro s; simp
  | cons x l ih =>
    intro s
    rw [List.foldl_cons, ih, List.map_cons, List.sum_cons]
    omega

theorem sum_map_range (a : ℕ → ℤ) : ∀ n : ℕ, ((List.range n).map a).sum = sumUpTo a n := by
  intro n
  induction n with
  | zero => rfl
  | succ n ih =>
    rw [List.range_succ, List.map_append, List.sum_append, ih, List.map_cons, List.map_nil,
      List.sum_cons, List.sum_nil]
    show sumUpTo a n + (a n + 0) = sumUpTo a n + a n
    omega

theorem sumUpTo_arrInit : ∀ n : ℕ, sumUpTo arrInit n = ((n % 2 : ℕ) : ℤ) := by
  intro n
  induction n with
  | zero => rfl
  | succ n ih =>
    show sumUpTo arrInit n + arrInit n = _
    rw [ih]
    by_cases h : n % 2 = 0 <;> simp [arrInit, h] <;> omega

theorem sumUpTo_reductionArray : ∀ n : ℕ,
    sumUpTo reductionArray n = sumUpTo arrInit n
      + (if 1 ≤ n then 2 else 0)
      + (if minloc_ref + 1 ≤ n then -101 else 0)
      + (if maxloc_ref + 1 ≤ n then 101 else 0) := by
  have hml : minloc_ref = 500000 := rfl
  have hMl : maxloc_ref = 500001 := rfl
  intro n
  induction n with
  | zero => rfl
  | succ n ih =>
    have hsucc : ∀ (a : ℕ → ℤ) (k : ℕ), sumUpTo a (k + 1) = sumUpTo a k + a k :=
      fun a k => rfl
    rw [hsucc, hsucc, ih]
    by_cases h0 : n = 0
    · subst h0
      have hra : reductionArray 0 = 3 := by
        simp only [reductionArray, store]
        rw [if_neg (by decide : ¬ (0 : ℕ) = maxloc_ref),
          if_neg (by decide : ¬ (0 : ℕ) = minloc_ref), if_pos trivial]
      rw [hra]
      have hai : arrInit 0 = 1 := rfl
      rw [hai]
      split_ifs <;> omega
    · by_cases hm : n = minloc_ref
      · subst hm
        rw [reductionArray_at_minloc]
        have hai : arrInit minloc_ref = 1 := by
          simp only [arrInit]
          rw [if_pos (by decide : minloc_ref % 2 = 0)]
        rw [hai]
        split_ifs <;> omega
      · by_cases hM : n = maxloc_ref
        · subst hM
          rw [reductionArray_at_maxloc]
          have hai : arrInit maxloc_ref = -1 := by
            simp only [arrInit]
            rw [if_neg (by decide : ¬ maxloc_ref % 2 = 0)]
          rw [hai]
          split_ifs <;> omega
        · have hra : reductionArray n = arrInit n := by
            simp only [reductionArray, store]
            rw [if_neg hM, if_neg hm, if_neg h0]
          rw [hra]
          split_ifs <;> omega

/- ### Min/max fold characterizations -/

theorem foldl_min_ge (a : ℕ → ℤ) (v : ℤ) :
    ∀ (l : List ℕ) (s : ℤ), v ≤ s → (∀ i ∈ l, v ≤ a i) →
      v ≤ l.foldl (fun s i => min s (a i)) s := by
  intro l
  induction l with
  | nil => intro s hs _; exact hs
  | cons x l ih =>
    intro s hs hlow
    refine ih (min s (a x)) ?_ (fun i hi => hlow i (List.mem_cons_of_mem _ hi))
    have := hlow x (List.mem_cons_self _ _)
    omega

theorem foldl_min_le_start (a : ℕ → ℤ) :
    ∀ (l : List ℕ) (s : ℤ), l.foldl (fun s i => min s (a i)) s ≤ s := by
  intro l
  induction l with
  | nil => intro s; exact le_refl s
  | cons x l ih =>
    intro s
    have h := ih (min s (a x))
    have : min s (a x) ≤ s := min_le_left _ _
    exact le_trans h this

theorem foldl_min_le_mem (a : ℕ → ℤ) :
    ∀ (l : List ℕ) (s : ℤ) (j : ℕ), j ∈ l → l.foldl (fun s i => min s (a i)) s ≤ a j := by
  intro l
  induction l with
  | nil => intro s j hj; exact absurd hj (List.not_mem_nil j)
  | cons x l ih =>
    intro s j hj
    rcases List.mem_cons.mp hj with hx | hl
    · subst hx
      have h := foldl_min_le_start a l (min s (a j))
      have : min s (a j) ≤ a j := min_le_right _ _
      exact le_trans h this
    · exact ih (min s (a x)) j hl

theorem foldl_min_eq (a : ℕ → ℤ) (v : ℤ) (l : List ℕ) (s : ℤ)
    (hs : v ≤ s) (hlow : ∀ i ∈ l, v ≤ a i) (hmem : ∃ j ∈ l, a j = v) :
    l.foldl (fun s i => min s (a i)) s = v := by
  obtain ⟨j, hj, hja⟩ := hmem
  refine le_antisymm ?_ (foldl_min_ge a v l s hs hlow)
  rw [← hja]
  exact foldl_min_le_mem a l s j hj

theorem foldl_max_le (a : ℕ → ℤ) (v : ℤ) :
    ∀ (l : List ℕ) (s : ℤ), s ≤ v → (∀ i ∈ l, a i ≤ v) →
      l.foldl (fun s i => max s (a i)) s ≤ v := by
  intro l
  induction l with
  | nil => intro s hs _; exact hs
  | cons x l ih =>
    intro s hs hupp
    refine ih (max s (a x)) ?_ (fun i hi => hupp i (List.mem_cons_of_mem _ hi))
    have := hupp x (List.mem_cons_self _ _)
    omega

theorem foldl_max_ge_start (a : ℕ → ℤ) :
    ∀ (l : List ℕ) (s : ℤ), s ≤ l.foldl (fun s i => max s (a i)) s := by
  intro l
  induction l with
  | nil => intro s; exact le_refl s
  | cons x l ih =>
    intro s
    have h := ih (max s (a x))
    have : s ≤ max s (a x) := le_max_left _ _
    exact le_trans this h

theorem foldl_max_ge_mem (a : ℕ → ℤ) :
    ∀ (l : List ℕ) (s : ℤ) (j : ℕ), j ∈ l → a j ≤ l.foldl (fun s i => max s (a i)) s := by
  intro l
  induction l with
  | nil => intro s j hj; exact absurd hj (List.not_mem_nil j)
  | cons x l ih =>
    intro s j hj
    rcases List.mem_cons.mp hj with hx | hl
    · subst hx
      have h := foldl_max_ge_start a l (max s (a j))
      have : a j ≤ max s (a j) := le_max_right _ _
      exact le_trans this h
    · exact ih (max s (a x)) j hl

theorem foldl_max_eq (a : ℕ → ℤ) (v : ℤ) (l : List ℕ) (s : ℤ)
    (hs : s ≤ v) (hupp : ∀ i ∈ l, a i ≤ v) (hmem : ∃ j ∈ l, a j = v) :
    l.foldl (fun s i => max s (a i)) s = v := by
  obtain ⟨j, hj, hja⟩ := hmem
  refine le_antisymm (foldl_max_le a v l s hs hupp) ?_
  rw [← hja]
  exact foldl_max_ge_mem a l s j hj

/- ### Minloc/maxloc fold characterizations (unique extremum) -/

theorem foldl_minloc_keep (a : ℕ → ℤ) :
    ∀ (l : List ℕ) (s : VL), (∀ i ∈ l, ¬ (a i < s.val)) →
      l.foldl (minlocStep a) s = s := by
  intro l
  induction l with
  | nil => intro s _; rfl
  | cons x l ih =>
    intro s hk
    rw [List.foldl_cons]
    have hx : minlocStep a s x = s := by
      simp only [minlocStep]
      rw [if_neg (hk x (List.mem_cons_self _ _))]
    rw [hx]
    exact ih s (fun i hi => hk i (List.mem_cons_of_mem _ hi))

theorem foldl_minloc_unique (a : ℕ → ℤ) (mval : ℤ) (j : ℕ) :
    ∀ (l : List ℕ) (s : VL), j ∈ l → a j = mval → mval < s.val →
      (∀ i ∈ l, i ≠ j → mval < a i) →
      l.foldl (minlocStep a) s = VL.mk mval (j : ℤ) := by
  intro l
  induction l with
  | nil => intro s hj; exact absurd hj (List.not_mem_nil j)
  | cons x l ih =>
    intro s hj hja hsv huniq
    rw [List.foldl_cons]
    by_cases hx : x = j
    · subst hx
      have hstep : minlocStep a s x = VL.mk mval (x : ℤ) := by
        simp only [minlocStep]
        rw [hja, if_pos hsv]
      rw [hstep]
      refine foldl_minloc_keep a l _ ?_
      intro i hi
      show ¬ a i < mval
      by_cases hij : i = x
      · subst hij; omega
      · have := huniq i (List.mem_cons_of_mem _ hi) hij
        omega
    · have hjl : j ∈ l := by
        rcases List.mem_cons.mp hj with h | h
        · exact absurd h.symm hx
        · exact h
      have hsv' : mval < (minlocStep a s x).val := by
        simp only [minlocStep]
        split_ifs with h
        · exact huniq x (List.mem_cons_self _ _) hx
        · exact hsv
      exact ih (minlocStep a s x) hjl hja hsv'
        (fun i hi hij => huniq i (List.mem_cons_of_mem _ hi) hij)

theorem foldl_maxloc_keep (a : ℕ → ℤ) :
    ∀ (l : List ℕ) (s : VL), (∀ i ∈ l, ¬ (a i > s.val)) →
      l.foldl (maxlocStep a) s = s := by
  intro l
  induction l with
  | nil => intro s _; rfl
  | cons x l ih =>
    intro s hk
    rw [List.foldl_cons]
    have hx : maxlocStep a s x = s := by
      simp only [maxlocStep]
      rw [if_neg (hk x (List.mem_cons_self _ _))]
    rw [hx]
    exact ih s (fun i hi => hk i (List.mem_cons_of_mem _ hi))

theorem foldl_maxloc_unique (a : ℕ → ℤ) (mval : ℤ) (j : ℕ) :
    ∀ (l : List ℕ) (s : VL), j ∈ l → a j = mval → s.val < mval →
      (∀ i ∈ l, i ≠ j → a i < mval) →
      l.foldl (maxlocStep a) s = VL.mk mval (j : ℤ) := by
  intro l
  induction l with
  | nil => intro s hj; exact absurd hj (List.not_mem_nil j)
  | cons x l ih =>
    intro s hj hja hsv huniq
    rw [List.foldl_cons]
    by_cases hx : x = j
    · subst hx
      have hstep : maxlocStep a s x = VL.mk mval (x : ℤ) := by
        simp only [maxlocStep]
        rw [hja, if_pos hsv]
      rw [hstep]
      refine foldl_maxloc_keep a l _ ?_
      intro i hi
      show ¬ a i > mval
      by_cases hij : i = x
      · subst hij; omega
      · have := huniq i (List.mem_cons_of_mem _ hi) hij
        omega
    · have hjl : j ∈ l := by
        rcases List.mem_cons.mp hj with h | h
        · exact absurd h.symm hx
        · exact h
      have hsv' : (maxlocStep a s x).val < mval := by
        simp only [maxlocStep]
        split_ifs with h
        · exact huniq x (List.mem_cons_self _ _) hx
        · exact hsv
      exact ih (maxlocStep a s x) hjl hja hsv'
        (fun i hi hij => huniq i (List.mem_cons_of_mem _ hi) hij)

theorem reductionArray_lb (i : ℕ) : -100 ≤ reductionArray i := by
  rcases reductionArray_values i with h | h | h | h | h <;> omega

theorem reductionArray_ub (i : ℕ) : reductionArray i ≤ 100 := by
  rcases reductionArray_values i with h | h | h | h | h <;> omega

theorem reductionArray_lt_intmax (i : ℕ) : reductionArray i < INT_MAX := by
  have h := reductionArray_ub i
  have hIM : INT_MAX = 2147483647 := rfl
  omega

theorem reductionArray_gt_intmin (i : ℕ) : INT_MIN < reductionArray i := by
  have h := reductionArray_lb i
  have hIm : INT_MIN = -2147483648 := rfl
  omega

/- ### Sequential reduction results -/

theorem seqSum_result : seqSum reductionArray canonicalIndices = 2 := by
  simp only [seqSum, canonicalIndices]
  rw [foldl_add_eq, sum_map_range, sumUpTo_reductionArray, sumUpTo_arrInit]
  rw [if_pos (by decide : 1 ≤ reductionN),
    if_pos (by decide : minloc_ref + 1 ≤ reductionN),
    if_pos (by decide : maxloc_ref + 1 ≤ reductionN),
    (by decide : reductionN % 2 = 0)]
  norm_num

theorem seqMin_result : seqMin reductionArray canonicalIndices = -100 := by
  simp only [seqMin, canonicalIndices]
  refine foldl_min_eq reductionArray (-100) _ INT_MAX (by decide)
    (fun i _ => reductionArray_lb i) ?_
  exact ⟨minloc_ref, List.mem_range.mpr (by decide), reductionArray_at_minloc⟩

theorem seqMax_result : seqMax reductionArray canonicalIndices = 100 := by
  simp only [seqMax, canonicalIndices]
  refine foldl_max_eq reductionArray 100 _ INT_MIN (by decide)
    (fun i _ => reductionArray_ub i) ?_
  exact ⟨maxloc_ref, List.mem_range.mpr (by decide), reductionArray_at_maxloc⟩

theorem seqMinLoc_result :
    seqMinLoc reductionArray canonicalIndices = VL.mk (-100) (minloc_ref : ℤ) := by
  simp only [seqMinLoc, canonicalIndices]
  exact foldl_minloc_unique reductionArray (-100) minloc_ref (List.range reductionN)
    (VL.mk INT_MAX (-1)) (List.mem_range.mpr (by decide)) reductionArray_at_minloc
    (by decide) (fun i _ h => reductionArray_unique_min i h)

theorem seqMaxLoc_result :
    seqMaxLoc reductionArray canonicalIndices = VL.mk 100 (maxloc_ref : ℤ) := by
  simp only [seqMaxLoc, canonicalIndices]
  exact foldl_maxloc_unique reductionArray 100 maxloc_ref (List.range reductionN)
    (VL.mk INT_MIN (-1)) (List.mem_range.mpr (by decide)) reductionArray_at_maxloc
    (by decide) (fun i _ h => reductionArray_unique_max i h)

/- ### Two-stage parallel merges agree with the sequential folds -/

theorem parSum_eq_seq (P : List (List ℕ)) (h : P.flatten = canonicalIndices) :
    parSum reductionArray P = seqSum reductionArray canonicalIndices := by
  simp only [parSum, seqSum]
  rw [twoStage_eq_flatten (fun s i => s + reductionArray i) (fun s v => s + v) 0
    (fun _ => True) (fun _ _ _ => trivial) trivial
    (fun s x _ => by show s + reductionArray x = s + (0 + reductionArray x); omega)
    (fun s _ => by show s + 0 = s; omega)
    (fun s t u _ _ _ => by show s + t + u = s + (t + u); omega)
    P 0 trivial, h]

theorem parMin_eq_seq (P : List (List ℕ)) (h : P.flatten = canonicalIndices) :
    parMin reductionArray P = seqMin reductionArray canonicalIndices := by
  simp only [parMin, seqMin]
  rw [twoStage_eq_flatten (fun s i => min s (reductionArray i)) (fun s v => min s v) INT_MAX
    (fun s => s ≤ INT_MAX)
    (fun s x hs => by show min s (reductionArray x) ≤ INT_MAX; omega) le_rfl
    (fun s x hs => by
      have hx := reductionArray_lt_intmax x
      show min s (reductionArray x) = min s (min INT_MAX (reductionArray x))
      omega)
    (fun s hs => by show min s INT_MAX = s; omega)
    (fun s t u _ _ _ => by show min (min s t) u = min s (min t u); omega)
    P INT_MAX le_rfl, h]

theorem parMax_eq_seq (P : List (List ℕ)) (h : P.flatten = canonicalIndices) :
    parMax reductionArray P = seqMax reductionArray canonicalIndices := by
  simp only [parMax, seqMax]
  rw [twoStage_eq_flatten (fun s i => max s (reductionArray i)) (fun s v => max s v) INT_MIN
    (fun s => INT_MIN ≤ s)
    (fun s x hs => by show INT_MIN ≤ max s (reductionArray x); omega) le_rfl
    (fun s x hs => by
      have hx := reductionArray_gt_intmin x
      show max s (reductionArray x) = max s (max INT_MIN (reductionArray x))
      omega)
    (fun s hs => by show max s INT_MIN = s; omega)
    (fun s t u _ _ _ => by show max (max s t) u = max s (max t u); omega)
    P INT_MIN le_rfl, h]

theorem parMinLoc_eq_seq (P : List (List ℕ)) (h : P.flatten = canonicalIndices) :
    parMinLoc reductionArray P = seqMinLoc reductionArray canonicalIndices := by
  simp only [parMinLoc, seqMinLoc]
  rw [twoStage_eq_flatten (minlocStep reductionArray) mergeMinVL (VL.mk INT_MAX (-1))
    (fun s => s.val ≤ INT_MAX)
    (fun s x hs => by
      simp only [minlocStep]
      split_ifs with hlt
      · show reductionArray x ≤ INT_MAX
        have := reductionArray_lt_intmax x
        omega
      · exact hs)
    le_rfl
    (fun s x hs => by
      have hax : reductionArray x < INT_MAX := reductionArray_lt_intmax x
      have he : minlocStep reductionArray (VL.mk INT_MAX (-1)) x =
          VL.mk (reductionArray x) (x : ℤ) := by
        simp only [minlocStep]
        exact if_pos hax
      rw [he]
      simp only [minlocStep, mergeMinVL])
    (fun s hs => by
      simp only [mergeMinVL]
      exact if_neg (show ¬ (VL.mk INT_MAX (-1)).val < s.val by show ¬ INT_MAX < s.val; omega))
    (fun s t u _ _ _ => by
      simp only [mergeMinVL]
      split_ifs <;> first | rfl | (exfalso; omega))
    P (VL.mk INT_MAX (-1)) le_rfl, h]

theorem parMaxLoc_eq_seq (P : List (List ℕ)) (h : P.flatten = canonicalIndices) :
    parMaxLoc reductionArray P = seqMaxLoc reductionArray canonicalIndices := by
  simp only [parMaxLoc, seqMaxLoc]
  rw [twoStage_eq_flatten (maxlocStep reductionArray) mergeMaxVL (VL.mk INT_MIN (-1))
    (fun s => INT_MIN ≤ s.val)
    (fun s x hs => by
      simp only [maxlocStep]
      split_ifs with hlt
      · show INT_MIN ≤ reductionArray x
        have := reductionArray_gt_intmin x
        omega
      · exact hs)
    le_rfl
    (fun s x hs => by
      have hax : reductionArray x > INT_MIN := reductionArray_gt_intmin x
      have he : maxlocStep reductionArray (VL.mk INT_MIN (-1)) x =
          VL.mk (reductionArray x) (x : ℤ) := by
        simp only [maxlocStep]
        exact if_pos hax
      rw [he]
      simp only [maxlocStep, mergeMaxVL])
    (fun s hs => by
      simp only [mergeMaxVL]
      exact if_neg (show ¬ (VL.mk INT_MIN (-1)).val > s.val by show ¬ INT_MIN > s.val; omega))
    (fun s t u _ _ _ => by
      simp only [mergeMaxVL]
      split_ifs <;> first | rfl | (exfalso; omega))
    P (VL.mk INT_MIN (-1)) le_rfl, h]

/- ### Claim theorem: reduction example -/

/-- C3: for the 1,000,000-element array initialized to the alternating
sequence `+1, -1` and overwritten with `a[0]=3`, `a[N/2]=-100`,
`a[N/2+1]=100`, the reduction kernels
yield sum = 2, min = -100 at location `N/2`, max = 100 at location `N/2+1`;
and for every partition of the index sequence into per-worker chunks (any
parallel backend), the two-stage merge produces those same final values. -/
theorem launch_param_reductions_results :
    seqSum reductionArray canonicalIndices = 2 ∧
    seqMin reductionArray canonicalIndices = -100 ∧
    seqMax reductionArray canonicalIndices = 100 ∧
    seqMinLoc reductionArray canonicalIndices = VL.mk (-100) (minloc_ref : ℤ) ∧
    seqMaxLoc reductionArray canonicalIndices = VL.mk 100 (maxloc_ref : ℤ) ∧
    (∀ P : List (List ℕ), P.flatten = canonicalIndices →
      parSum reductionArray P = 2 ∧
      parMin reductionArray P = -100 ∧
      parMax reductionArray P = 100 ∧
      parMinLoc reductionArray P = VL.mk (-100) (minloc_ref : ℤ) ∧
      parMaxLoc reductionArray P = VL.mk 100 (maxloc_ref : ℤ)) := by
  refine ⟨seqSum_result, seqMin_result, seqMax_result, seqMinLoc_result, seqMaxLoc_result, ?_⟩
  intro P hP
  exact ⟨(parSum_eq_seq P hP).trans seqSum_result,
    (parMin_eq_seq P hP).trans seqMin_result,
    (parMax_eq_seq P hP).trans seqMax_result,
    (parMinLoc_eq_seq P hP).trans seqMinLoc_result,
    (parMaxLoc_eq_seq P hP).trans seqMaxLoc_result⟩

/-- Witness for C3: the single-chunk partition (one worker owning the whole
range). -/
theorem launch_param_reductions_results_witness :
    parSum reductionArray [canonicalIndices] = 2 ∧
    parMinLoc reductionArray [canonicalIndices] = VL.mk (-100) (minloc_ref : ℤ) :=
  ⟨(launch_param_reductions_results.2.2.2.2.2 [canonicalIndices] (by simp)).1,
   (launch_param_reductions_results.2.2.2.2.2 [canonicalIndices] (by simp)).2.2.2.1⟩

/- ### kernel_param matrix multiply,
src/test/functional/kernel/nested-loop/tests/test-kernel-nested-loop-MultiLambdaParam.hpp,
with the kernel statement executor modelled from the spec (the For/Lambda
statement executors are not among the source files). -/

/-- Modelled from the spec: the parameter accumulation of lambdas 0 and 1 for
one `(row, col)` iteration — `dot = 0.0` followed by
`dot += A(row, k) * B(k, col)` over the inner `For<2>` loop's `k` order.
Matrix entries are exact rationals (the doubles' arithmetic expressions). -/
def dotRun (A B : ℕ → ℕ → ℚ) (row col : ℕ) (ks : List ℕ) : ℚ :=
  ks.foldl (fun dot k => dot + A row k * B k col) 0

/-- Lambda 2's store `C(row, col) = dot`. -/
def kernelStore (C : ℕ → ℕ → ℚ) (rc : ℕ × ℕ) (v : ℚ) : ℕ → ℕ → ℚ :=
  fun r c => if r = rc.1 ∧ c = rc.2 then v else C r c

/-- Modelled from the spec: executing the test's statement tree
`For<1, For<0, Lambda<0>, For<2, Lambda<1>>, Lambda<2>>>` under a nested-loop
policy — the policy determines the enumeration order `pairs` of the
`(row, col)` iterations and the per-iteration inner order `kOrd row col`;
each iteration re-seeds `dot`, accumulates, and stores `C(row, col)`. -/
def kernel_param_matmul (A B : ℕ → ℕ → ℚ) (kOrd : ℕ → ℕ → List ℕ)
    (pairs : List (ℕ × ℕ)) (C0 : ℕ → ℕ → ℚ) : ℕ → ℕ → ℚ :=
  pairs.foldl (fun C rc => kernelStore C rc (dotRun A B rc.1 rc.2 (kOrd rc.1 rc.2))) C0

/-- The test's naive sequential triple-loop reference (lines 59-69): the same
dot product accumulated over `k = 0, ..., N-1` in order. -/
def refMatmul (A B : ℕ → ℕ → ℚ) (N row col : ℕ) : ℚ :=
  dotRun A B row col (List.range N)

/-- The canonical `(row, col)` enumeration of the `For<1>`/`For<0>` nest over
`(0,N) × (0,N)`. -/
def allPairs (N : ℕ) : List (ℕ × ℕ) :=
  (List.range N).flatMap fun row => (List.range N).map fun col => (row, col)

theorem foldl_add_eq_q (f : ℕ → ℚ) :
    ∀ (l : List ℕ) (s : ℚ), l.foldl (fun s k => s + f k) s = s + (l.map f).sum := by
  intro l
  induction l with
  | nil => intro s; simp
  | cons x l ih =>
    intro s
    rw [List.foldl_cons, ih, List.map_cons, List.sum_cons]
    ring

theorem dotRun_eq_sum (A B : ℕ → ℕ → ℚ) (row col : ℕ) (ks : List ℕ) :
    dotRun A B row col ks = (ks.map fun k => A row k * B k col).sum := by
  rw [dotRun, foldl_add_eq_q, zero_add]

theorem dotRun_perm (A B : ℕ → ℕ → ℚ) (row col : ℕ) (ks ks' : List ℕ)
    (h : ks.Perm ks') : dotRun A B row col ks = dotRun A B row col ks' := by
  rw [dotRun_eq_sum, dotRun_eq_sum]
  exact (h.map _).sum_eq

theorem kernel_param_matmul_not_mem (A B : ℕ → ℕ → ℚ) (kOrd : ℕ → ℕ → List ℕ) :
    ∀ (pairs : List (ℕ × ℕ)) (C0 : ℕ → ℕ → ℚ) (r c : ℕ), (r, c) ∉ pairs →
      kernel_param_matmul A B kOrd pairs C0 r c = C0 r c := by
  intro pairs
  induction pairs with
  | nil => intro C0 r c _; rfl
  | cons p rest ih =>
    intro C0 r c hmem
    have hne : (r, c) ≠ p := fun h => hmem (h ▸ List.mem_cons_self _ _)
    have hrest : (r, c) ∉ rest := fun h => hmem (List.mem_cons_of_mem _ h)
    show kernel_param_matmul A B kOrd rest _ r c = C0 r c
    rw [ih _ r c hrest]
    simp only [kernelStore]
    rw [if_neg]
    intro ⟨h1, h2⟩
    exact hne (Prod.ext h1 h2)

theorem kernel_param_matmul_lookup (A B : ℕ → ℕ → ℚ) (kOrd : ℕ → ℕ → List ℕ) :
    ∀ (pairs : List (ℕ × ℕ)) (C0 : ℕ → ℕ → ℚ) (r c : ℕ), (r, c) ∈ pairs →
      kernel_param_matmul A B kOrd pairs C0 r c = dotRun A B r c (kOrd r c) := by
  intro pairs
  induction pairs with
  | nil => intro C0 r c hmem; exact absurd hmem (List.not_mem_nil _)
  | cons p rest ih =>
    intro C0 r c hmem
    by_cases hrest : (r, c) ∈ rest
    · exact ih _ r c hrest
    · have hp : p = (r, c) := by
        rcases List.mem_cons.mp hmem with h | h
        · exact h.symm
        · exact absurd h hrest
      subst hp
      show kernel_param_matmul A B kOrd rest _ r c = _
      rw [kernel_param_matmul_not_mem A B kOrd rest _ r c hrest]
      simp [kernelStore]

theorem mem_allPairs (N r c : ℕ) (hr : r < N) (hc : c < N) : (r, c) ∈ allPairs N := by
  rw [allPairs, List.mem_flatMap]
  exact ⟨r, List.mem_range.mpr hr, List.mem_map.mpr ⟨c, List.mem_range.mpr hc, rfl⟩⟩

/- ### Claim theorem: matrix-multiply end-to-end -/

/-- C2: a `kernel_param` invocation with the three lambdas
(init `dot = 0`; accumulate `dot += A(row,k) * B(k,col)`; store
`C(row,col) = dot`) over the triple range `(0,N)^3`, under any supported
nested-loop execution policy (any enumeration order of the `(row, col)`
iterations and of each inner `k` loop), produces a matrix `C` matching the
naive sequential triple-loop reference within `1e-8` absolute tolerance at
every entry — the computed entries are exactly equal. -/
theorem kernel_param_matmul_matches_reference (A B : ℕ → ℕ → ℚ) (N : ℕ)
    (kOrd : ℕ → ℕ → List ℕ) (pairs : List (ℕ × ℕ)) (C0 : ℕ → ℕ → ℚ)
    (hpairs : pairs.Perm (allPairs N))
    (hk : ∀ r c, (kOrd r c).Perm (List.range N)) :
    ∀ r c, r < N → c < N →
      kernel_param_matmul A B kOrd pairs C0 r c = refMatmul A B N r c ∧
      |kernel_param_matmul A B kOrd pairs C0 r c - refMatmul A B N r c| <
        1 / 100000000 := by
  intro r c hr hc
  have hmem : (r, c) ∈ pairs := hpairs.mem_iff.mpr (mem_allPairs N r c hr hc)
  have heq : kernel_param_matmul A B kOrd pairs C0 r c = refMatmul A B N r c := by
    rw [kernel_param_matmul_lookup A B kOrd pairs C0 r c hmem, refMatmul]
    exact dotRun_perm A B r c _ _ (hk r c)
  refine ⟨heq, ?_⟩
  rw [heq, sub_self, abs_zero]
  norm_num

/-- Witness for C2 at `N = 2`, a reversed pair enumeration and a reversed
inner `k` order. -/
theorem kernel_param_matmul_matches_reference_witness :
    kernel_param_matmul (fun r k => (r : ℚ) + k) (fun k c => (k : ℚ) * c)
        (fun _ _ => [1, 0]) [(1, 1), (1, 0), (0, 1), (0, 0)] (fun _ _ => 0) 1 1 =
      refMatmul (fun r k => (r : ℚ) + k) (fun k c => (k : ℚ) * c) 2 1 1 :=
  (kernel_param_matmul_matches_reference (fun r k => (r : ℚ) + k) (fun k c => (k : ℚ) * c)
    2 (fun _ _ => [1, 0]) [(1, 1), (1, 0), (0, 1), (0, 0)] (fun _ _ => 0)
    (by decide) (fun _ _ => (by decide : ([1, 0] : List ℕ).Perm (List.range 2)))
    1 1 (by decide) (by decide)).1

end RAJAVerify
